import Mathlib

/-!
Shallow embedding of the configuration-resolution core of `logfilter`
(src/logfilter.py) and proofs about it.

Python strings are modelled as `List Char` (`Str`).  Filesystem and
process-environment effects are passed in explicitly:
* `pathExists : Str → Bool` models `os.path.exists`;
* `readFile : Str → Option (List Str)` models opening a flat config file and
  reading its lines, `none` standing for an `OSError`;
* `openIni : Str → Option IniDoc` models `configparser` reading one file,
  `none` standing for a missing/unreadable file;
* `Env` carries the two environment variables the code consults, `none`
  standing for an unset variable.

Each `def` is a direct translation of the named function in
src/logfilter.py, except where a doc comment says `Modelled from the spec:`.
-/

namespace Logfilter

/-- Python strings, as lists of characters. -/
abbrev Str := List Char

/-- The whitespace characters stripped by Python's `str.strip` /
`str.lstrip` (ASCII part; the source configuration keys are ASCII). -/
def isPySpace (c : Char) : Bool :=
  c = ' ' || c = '\t' || c = '\n' || c = '\r' || c = '\x0b' || c = '\x0c'

/-- Python `str.lstrip()` (no argument): drop leading whitespace. -/
def lstrip (s : Str) : Str := s.dropWhile isPySpace

/-- Python `str.rstrip()`: drop trailing whitespace. -/
def rstrip (s : Str) : Str := (s.reverse.dropWhile isPySpace).reverse

/-- Python `str.strip()`: drop whitespace at both ends. -/
def strip (s : Str) : Str := rstrip (lstrip s)

/-- Python `str.lower()` (ASCII case mapping, which is what the source's
keys use). -/
def lower (s : Str) : Str := s.map Char.toLower

/-- Python `line.partition("=")`: split at the first `'='`.  Returns the part
before the separator, whether the separator was found, and the part after
it. -/
def partitionEq : Str → Str × Bool × Str
  | [] => ([], false, [])
  | c :: rest =>
    if c = '=' then ([], true, rest)
    else
      let r := partitionEq rest
      (c :: r.1, r.2.1, r.2.2)

/-- Python `dict` as an association list: insertion order is kept, inserting
an existing key overwrites its value in place, a new key is appended. -/
abbrev AList := List (Str × Str)

/-- `d[k] = v` on a Python dict. -/
def upsert : AList → Str → Str → AList
  | [], k, v => [(k, v)]
  | (k', v') :: rest, k, v =>
    if k' = k then (k, v) :: rest else (k', v') :: upsert rest k v

/-- `d.get(k)` on a Python dict. -/
def lookupKV : AList → Str → Option Str
  | [], _ => none
  | (k', v) :: rest, k => if k' = k then some v else lookupKV rest k

/-- `d.update(pairs)`: store each pair in order. -/
def upsertAll (m : AList) (pairs : List (Str × Str)) : AList :=
  pairs.foldl (fun acc kv => upsert acc kv.1 kv.2) m

/-- One iteration of the loop of `parse_kv_config` (src/logfilter.py:296-304):
strip leading whitespace, skip `#` comments, split on the first `'='`, skip
lines without one, and otherwise return the stored key (stripped and
lower-cased) and value (stripped). -/
def kvEntry (line : Str) : Option (Str × Str) :=
  let l := lstrip line
  if l.head? = some '#' then none
  else
    let p := partitionEq l
    if p.2.1 then some (lower (strip p.1), strip p.2.2) else none

/-- `parse_kv_config` (src/logfilter.py:287-305): fold the per-line rule over
the lines, building a dict. -/
def parse_kv_config (lines : List Str) : AList :=
  lines.foldl
    (fun m line =>
      match kvEntry line with
      | some kv => upsert m kv.1 kv.2
      | none => m)
    []

/-- `disambiguate` (src/logfilter.py:59-75): the returned checker normalizes
the input with `func`, collects the names whose normalized form starts with
it, and returns the sole candidate if there is exactly one, the normalized
input otherwise. -/
def disambiguate (names : List Str) (func : Str → Str) (value : Str) : Str :=
  let v := func value
  let candidates := names.filter (fun name => v.isPrefixOf (func name))
  match candidates with
  | [c] => c
  | _ => v

/-! ### Glob matching (`fnmatch.fnmatch`)

`match_section` matches section names against file names with
`fnmatch.fnmatch`, whose POSIX semantics (where `os.path.normcase` is the
identity) are: `*` matches any run of characters, `?` exactly one, `[...]` a
character class (leading `!` negates, a `]` right after `[` or `[!` is a
literal member, `a-b` is a code-point range, an unclosed `[` is a literal
`[`), anchored at both ends. -/

/-- All suffixes of a string, longest first (used for `*`). -/
def suffixes : Str → List Str
  | [] => [[]]
  | c :: rest => (c :: rest) :: suffixes rest

/-- Scan for the first `]`; return what precedes it and what follows it. -/
def splitClose : Str → Option (Str × Str)
  | [] => none
  | c :: r =>
    if c = ']' then some ([], r)
    else (splitClose r).map (fun x => (c :: x.1, x.2))

/-- Parse a character class.  `p` is what follows the opening `[`; the result
is (negated?, class body, rest of the pattern), or `none` when there is no
closing `]` (in which case `[` is a literal).  A `]` directly after `[` or
`[!` belongs to the body, as in `fnmatch.translate`. -/
def parseClass (p : Str) : Option (Bool × Str × Str) :=
  match p with
  | '!' :: ']' :: r => (splitClose r).map (fun x => (true, ']' :: x.1, x.2))
  | '!' :: r => (splitClose r).map (fun x => (true, x.1, x.2))
  | ']' :: r => (splitClose r).map (fun x => (false, ']' :: x.1, x.2))
  | r => (splitClose r).map (fun x => (false, x.1, x.2))

/-- Class-body membership: `a-b` is a range, anything else (including a `-`
at either end) is a literal member. -/
def inClass : Str → Char → Bool
  | lo :: '-' :: hi :: rest, c => (lo ≤ c && c ≤ hi) || inClass rest c
  | x :: rest, c => c = x || inClass rest c
  | [], _ => false

theorem splitClose_len : ∀ {p a b : Str}, splitClose p = some (a, b) → b.length < p.length := by
  intro p
  induction p with
  | nil => intro a b h; simp [splitClose] at h
  | cons c r ih =>
    intro a b h
    simp only [splitClose] at h
    split at h
    · simp only [Option.some.injEq, Prod.mk.injEq] at h
      obtain ⟨-, hb⟩ := h
      simp [← hb]
    · rw [Option.map_eq_some'] at h
      obtain ⟨x, hx, hab⟩ := h
      cases hab
      have := ih hx
      simp only [List.length_cons]
      omega

theorem parseClass_rest_len {p : Str} {neg : Bool} {body rest : Str}
    (h : parseClass p = some (neg, body, rest)) : rest.length < p.length + 1 := by
  unfold parseClass at h
  split at h <;>
  · rw [Option.map_eq_some'] at h
    obtain ⟨x, hx, hx2⟩ := h
    have := splitClose_len hx
    cases hx2
    try simp only [List.length_cons]
    omega

/-- Does glob pattern `p` match the whole string `s`? -/
def globMatch (p s : Str) : Bool :=
  match p, s with
  | [], s => s.isEmpty
  | '*' :: rest, s => (suffixes s).any (fun t => globMatch rest t)
  | '?' :: rest, s =>
    match s with
    | [] => false
    | _ :: s' => globMatch rest s'
  | '[' :: body, s =>
    match hp : parseClass body with
    | some (neg, cls, rest) =>
      match s with
      | [] => false
      | c :: s' => (inClass cls c != neg) && globMatch rest s'
    | none =>
      match s with
      | [] => false
      | c :: s' => (c = '[') && globMatch body s'
  | c :: rest, s =>
    match s with
    | [] => false
    | _ :: _ => (s.head? = some c) && globMatch rest s.tail
termination_by p.length
decreasing_by
  all_goals first
    | (simp; omega)
    | (simp only [List.length_cons]; have hlen := parseClass_rest_len hp; omega)
    | simp

/-- `fnmatch.fnmatch(name, pat)` on POSIX: does `pat` glob-match `name`? -/
def fnmatch (name pat : Str) : Bool := globMatch pat name

/-! ### Path discovery (`load_config_paths`) -/

/-- The two environment variables `load_config_paths` consults; `none` means
the variable is unset. -/
structure Env where
  xdg_config_home : Option Str
  xdg_config_dirs : Option Str

/-- Python's `os.environ.get(var) or default`: an unset variable and a
variable set to the empty (falsy) string both yield the default. -/
def envOr (v : Option Str) (d : Str) : Str :=
  match v with
  | some s => if s = [] then d else s
  | none => d

/-- `os.path.join(a, b)` for POSIX paths: an absolute `b` replaces `a`;
otherwise a separator is inserted unless `a` is empty or already ends in
one. -/
def pyJoin (a b : Str) : Str :=
  if b.head? = some '/' then b
  else if a = [] ∨ a.getLast? = some '/' then a ++ b
  else a ++ '/' :: b

/-- `os.path.join(*parts)` over a non-empty argument list. -/
def pyJoinList (a : Str) (rest : List Str) : Str := rest.foldl pyJoin a

/-- The generator loop of `load_config_paths` (src/logfilter.py:243-246):
join each base directory with the resource path and yield it if it exists. -/
def yieldExisting (pathExists : Str → Bool) (resource_path : Str) : List Str → List Str
  | [] => []
  | d :: ds =>
    let path := pyJoin d resource_path
    if pathExists path then path :: yieldExisting pathExists resource_path ds
    else yieldExisting pathExists resource_path ds

/-- `load_config_paths` (src/logfilter.py:227-246).  `home` stands for
`os.path.expanduser("~")`; `resource0 :: resourceRest` are the `*resource`
arguments. -/
def load_config_paths (env : Env) (home : Str) (pathExists : Str → Bool)
    (resource0 : Str) (resourceRest : List Str) : List Str :=
  let xdg_config_home := envOr env.xdg_config_home (pyJoin home (".config").toList)
  let xdg_config_dirs :=
    xdg_config_home :: List.splitOn ':' (envOr env.xdg_config_dirs ("/etc/xdg").toList)
  let resource_path := pyJoinList resource0 resourceRest
  yieldExisting pathExists resource_path xdg_config_dirs

/-- `__prog__` -/
def progName : Str := ("logfilter").toList

/-- `CONFIG_PATH` -/
def CONFIG_PATH : Str := ("config").toList

/-- `LOGFILES_CONF_PATH` -/
def LOGFILES_CONF_PATH : Str := ("logfiles.conf").toList

/-! ### Flat-defaults merging (`load_defaults`) -/

/-- The loop of `load_defaults` (src/logfilter.py:251-260): open each
discovered file, skipping (`continue`) those that cannot be opened, and
parse the rest, in discovery order. -/
def kvMaps (readFile : Str → Option (List Str)) : List Str → List AList
  | [] => []
  | cfg :: rest =>
    match readFile cfg with
    | none => kvMaps readFile rest
    | some lines => parse_kv_config lines :: kvMaps readFile rest

/-- `collections.ChainMap.__getitem__` / `.get`: consult the maps in order,
first hit wins. -/
def chainLookup : List AList → Str → Option Str
  | [], _ => none
  | m :: rest, k =>
    match lookupKV m k with
    | some v => some v
    | none => chainLookup rest k

/-- `collections.ChainMap.__contains__`: a key is in the view iff some map
defines it. -/
def chainContains (maps : List AList) (k : Str) : Bool :=
  maps.any (fun m => (lookupKV m k).isSome)

/-- `load_defaults` (src/logfilter.py:249-261): `ChainMap(*maps, defaults)`,
represented as its list of maps with `defaults` last. -/
def load_defaults (env : Env) (home : Str) (pathExists : Str → Bool)
    (readFile : Str → Option (List Str)) (defaults : AList) : List AList :=
  kvMaps readFile (load_config_paths env home pathExists progName [CONFIG_PATH]) ++ [defaults]

/-! ### The sectioned document (`configparser.ConfigParser`)

`IniDoc` is one parsed configuration file: the pairs of its `DEFAULT`
section and its named sections with their pairs, in file order (keys already
normalized by the parser).  `Config` is the accumulated parser state:
reading a file merges its `DEFAULT` pairs into the default map and each of
its sections into the section of the same name (creating it at the end if
new), later-read values overwriting earlier ones per key. -/

structure IniDoc where
  defaults : List (Str × Str)
  sections : List (Str × List (Str × Str))

structure Config where
  defaultMap : AList
  sections : List (Str × AList)

/-- Merge one section's pairs into the section list: update the section of
that name in place, or append a new one. -/
def readSection : List (Str × AList) → Str → List (Str × Str) → List (Str × AList)
  | [], name, pairs => [(name, upsertAll [] pairs)]
  | (n, m) :: rest, name, pairs =>
    if n = name then (n, upsertAll m pairs) :: rest
    else (n, m) :: readSection rest name pairs

/-- Merge one parsed file into the parser state. -/
def readDoc (cfg : Config) (doc : IniDoc) : Config :=
  ⟨upsertAll cfg.defaultMap doc.defaults,
    doc.sections.foldl (fun s sec => readSection s sec.1 sec.2) cfg.sections⟩

/-- `ConfigParser.read(filenames)`: read each file in order, silently
skipping those that cannot be opened. -/
def readAll (openIni : Str → Option IniDoc) (cfg : Config) (filenames : List Str) : Config :=
  filenames.foldl
    (fun c f =>
      match openIni f with
      | some d => readDoc c d
      | none => c)
    cfg

/-- `read_configuration` (src/logfilter.py:264-274): feed the discovered
candidate files to `config.read` in `reversed` order. -/
def read_configuration (openIni : Str → Option IniDoc) (cfg : Config)
    (env : Env) (home : Str) (pathExists : Str → Bool) (pathname : Str) : Config :=
  readAll openIni cfg (load_config_paths env home pathExists progName [pathname]).reverse

/-- Find a section by (exact) name, as `config[name]` does. -/
def findSec : List (Str × AList) → Str → Option AList
  | [], _ => none
  | (n, m) :: rest, name => if n = name then some m else findSec rest name

/-- The raw value a section of the merged document holds for a key (no
DEFAULT fallback). -/
def sectionKV (cfg : Config) (sec k : Str) : Option Str :=
  (findSec cfg.sections sec).bind (fun m => lookupKV m k)

/-- The DEFAULT value one parsed file on its own gives a key. -/
def docDefaultValue (d : IniDoc) (k : Str) : Option Str :=
  lookupKV (upsertAll [] d.defaults) k

/-- Find a section's pairs inside one parsed file. -/
def findDocSec : List (Str × List (Str × Str)) → Str → Option (List (Str × Str))
  | [], _ => none
  | (n, ps) :: rest, name => if n = name then some ps else findDocSec rest name

/-- The value one parsed file on its own gives a section+key. -/
def docSectionValue (d : IniDoc) (sec k : Str) : Option Str :=
  (findDocSec d.sections sec).bind (fun ps => lookupKV (upsertAll [] ps) k)

/-! ### Per-target resolution -/

/-- `match_section` (src/logfilter.py:277-284): the first declared section
whose name fnmatches the file name, or `none`. -/
def match_section (name : Str) (cfg : Config) : Option (Str × AList) :=
  cfg.sections.find? (fun sec => fnmatch name sec.1)

/-- The settings lookup `main` performs per log file
(src/logfilter.py:152-153): `section = match_section(logfile, cfg) or
cfg_defaults`, where a key missing from the matched section falls back to
the DEFAULT map (configparser section-proxy semantics). -/
def resolveSetting (cfg : Config) (logfile key : Str) : Option Str :=
  match match_section logfile cfg with
  | some sec => (lookupKV sec.2 key).or (lookupKV cfg.defaultMap key)
  | none => lookupKV cfg.defaultMap key

/-- Modelled from the spec: the cumulative resolution the spec describes
(and the repository's tests exercise as `get_matching_settings`, a function
absent from src/logfilter.py): start from a copy of the DEFAULT mapping and
overlay every declared section whose pattern matches the target, in
declaration order, so on a conflicting key the last-declared matching
section wins; if no section matches, the result is DEFAULT. -/
def overlayResolution (cfg : Config) (logfile : Str) : AList :=
  cfg.sections.foldl
    (fun acc sec => if fnmatch logfile sec.1 then upsertAll acc sec.2 else acc)
    cfg.defaultMap

/-! ### Dictionary and chain lemmas -/

theorem lookupKV_upsert (m : AList) (k v q : Str) :
    lookupKV (upsert m k v) q = if k = q then some v else lookupKV m q := by
  induction m with
  | nil => simp [upsert, lookupKV]
  | cons p rest ih =>
    obtain ⟨a, b⟩ := p
    by_cases hak : a = k <;> by_cases haq : a = q <;> by_cases hkq : k = q <;>
      simp_all [upsert, lookupKV]

theorem lookupKV_upsertAll (ps : List (Str × Str)) (m : AList) (q : Str) :
    lookupKV (upsertAll m ps) q = (lookupKV (upsertAll [] ps) q).or (lookupKV m q) := by
  induction ps generalizing m with
  | nil => simp [upsertAll, lookupKV]
  | cons p ps ih =>
    simp only [upsertAll, List.foldl_cons] at *
    rw [ih (upsert m p.1 p.2), ih (upsert [] p.1 p.2), Option.or_assoc]
    congr 1
    rw [lookupKV_upsert, lookupKV_upsert]
    by_cases h : p.1 = q <;> simp [h, lookupKV]

theorem chainLookup_append (S : List AList) (D : AList) (k : Str) :
    chainLookup (S ++ [D]) k = (S.findSome? (fun m => lookupKV m k)).or (lookupKV D k) := by
  induction S with
  | nil =>
    simp only [List.nil_append, chainLookup, List.findSome?_nil, Option.none_or]
    cases lookupKV D k <;> rfl
  | cons m S ih =>
    simp only [List.cons_append, chainLookup, List.findSome?_cons]
    cases lookupKV m k
    · simpa using ih
    · simp

/-- C3: flat-defaults merging: looking up a key in the merged view built by
`load_defaults` returns the value of the earliest parsed source defining it,
falling back to the supplied defaults, and the view contains a key iff some
source or the defaults define it. -/
theorem load_defaults_merge_c3 (env : Env) (home : Str) (pathExists : Str → Bool)
    (readFile : Str → Option (List Str)) (defaults : AList) (k : Str) :
    chainLookup (load_defaults env home pathExists readFile defaults) k
      = ((kvMaps readFile (load_config_paths env home pathExists progName [CONFIG_PATH])).findSome?
          (fun m => lookupKV m k)).or (lookupKV defaults k)
    ∧ (chainContains (load_defaults env home pathExists readFile defaults) k = true ↔
        (∃ m ∈ kvMaps readFile (load_config_paths env home pathExists progName [CONFIG_PATH]),
          (lookupKV m k).isSome = true) ∨ (lookupKV defaults k).isSome = true) := by
  constructor
  · exact chainLookup_append _ _ _
  · simp [load_defaults, chainContains, List.any_append, List.any_eq_true]

/-! ### Path discovery -/

theorem yieldExisting_eq (pathExists : Str → Bool) (res : Str) (ds : List Str) :
    yieldExisting pathExists res ds = (ds.map (fun d => pyJoin d res)).filter pathExists := by
  induction ds with
  | nil => rfl
  | cons d ds ih =>
    simp only [yieldExisting, List.map_cons, List.filter_cons]
    by_cases h : pathExists (pyJoin d res) <;> simp [h, ih]

/-- C5: `load_config_paths` yields exactly the existing candidates, in
precedence order (user base first, then each directory of the system list in
listed order, each joined with the resource), and the sequence is bounded by
the number of configured base directories.  Absent environment variables
take defaults (`envOr none`). -/
theorem load_config_paths_c5 (env : Env) (home : Str) (pathExists : Str → Bool)
    (resource0 : Str) (resourceRest : List Str) :
    load_config_paths env home pathExists resource0 resourceRest
      = ((envOr env.xdg_config_home (pyJoin home (".config").toList)
            :: List.splitOn ':' (envOr env.xdg_config_dirs ("/etc/xdg").toList)).map
          (fun d => pyJoin d (pyJoinList resource0 resourceRest))).filter pathExists
    ∧ (load_config_paths env home pathExists resource0 resourceRest).length
        ≤ 1 + (List.splitOn ':' (envOr env.xdg_config_dirs ("/etc/xdg").toList)).length := by
  have h1 : load_config_paths env home pathExists resource0 resourceRest
      = ((envOr env.xdg_config_home (pyJoin home (".config").toList)
            :: List.splitOn ':' (envOr env.xdg_config_dirs ("/etc/xdg").toList)).map
          (fun d => pyJoin d (pyJoinList resource0 resourceRest))).filter pathExists := by
    simp [load_config_paths, yieldExisting_eq]
  refine ⟨h1, ?_⟩
  rw [h1]
  calc (((_ :: _).map _).filter pathExists).length
      ≤ ((_ :: _).map _).length := List.length_filter_le _ _
    _ = 1 + (List.splitOn ':' (envOr env.xdg_config_dirs ("/etc/xdg").toList)).length := by
        simp [Nat.add_comm]

/-- C10: an environment variable set to the empty string acts exactly like
an unset one: discovery is unchanged, for either variable. -/
theorem load_config_paths_empty_env_c10 (hd dv : Option Str) (home : Str)
    (pathExists : Str → Bool) (r0 : Str) (rs : List Str) :
    load_config_paths ⟨some [], dv⟩ home pathExists r0 rs
      = load_config_paths ⟨none, dv⟩ home pathExists r0 rs
    ∧ load_config_paths ⟨hd, some []⟩ home pathExists r0 rs
      = load_config_paths ⟨hd, none⟩ home pathExists r0 rs := by
  constructor <;> simp [load_config_paths, envOr]

/-! ### Skip-on-error merging -/

/-- C8: a discovered flat config file whose open fails contributes nothing
to the merge and the files after it are still read: the merged map list is
the one obtained with the unreadable path removed. -/
theorem kvMaps_skip_unreadable_c8 (readFile : Str → Option (List Str)) (xs : List Str)
    (p : Str) (ys : List Str) (h : readFile p = none) :
    kvMaps readFile (xs ++ p :: ys) = kvMaps readFile (xs ++ ys) := by
  induction xs with
  | nil => simp [kvMaps, h]
  | cons x xs ih =>
    simp only [List.cons_append, kvMaps]
    cases readFile x <;> simp [ih]

theorem kvMaps_skip_unreadable_c8_witness :
    kvMaps (fun q => if q = ("bad").toList then none else some [("a=1").toList])
        ([] ++ ("bad").toList :: [("good").toList])
      = kvMaps (fun q => if q = ("bad").toList then none else some [("a=1").toList])
        ([] ++ [("good").toList]) :=
  kvMaps_skip_unreadable_c8 _ [] _ _ (by decide)

/-! ### Disambiguation -/

/-- C2 counterexample: with candidate `"Ab"` and normalization `lower`,
input `"a"` has the single candidate `"Ab"`, and the checker returns the
candidate's original name `"Ab"`, not its normalized form `"ab"` — refuting
the claim that the sole candidate is returned normalized per `func`. -/
theorem disambiguate_c2_counterexample :
    disambiguate [("Ab").toList] lower (['a']) = ("Ab").toList
    ∧ disambiguate [("Ab").toList] lower (['a']) ≠ lower (("Ab").toList) := by
  decide

/-- C2 (amended): the checker's candidates are the names whose
`func`-normalized form starts with `func s`; a sole candidate is returned as
its original (un-normalized) name, and zero or several candidates yield
`func s` unchanged. -/
theorem disambiguate_c2_amended (names : List Str) (func : Str → Str) (s : Str) :
    (∀ n, names.filter (fun name => (func s).isPrefixOf (func name)) = [n] →
      disambiguate names func s = n)
    ∧ ((names.filter (fun name => (func s).isPrefixOf (func name))).length ≠ 1 →
      disambiguate names func s = func s) := by
  constructor
  · intro n h
    simp [disambiguate, h]
  · intro h
    rcases hL : names.filter (fun name => (func s).isPrefixOf (func name)) with - | ⟨c, - | ⟨d, t⟩⟩
    · simp [disambiguate, hL]
    · rw [hL] at h
      simp at h
    · simp [disambiguate, hL]

theorem disambiguate_c2_amended_witness :
    disambiguate [("a").toList, ("aa").toList, ("ab").toList, ("ac").toList, ("ade").toList]
        (fun x => x) (("ad").toList) = ("ade").toList
    ∧ disambiguate [("a").toList, ("aa").toList, ("ab").toList, ("ac").toList, ("ade").toList]
        (fun x => x) (("b").toList) = ("b").toList
    ∧ disambiguate [("a").toList, ("aa").toList, ("ab").toList, ("ac").toList, ("ade").toList]
        (fun x => x) (("a").toList) = ("a").toList
    ∧ disambiguate [("a").toList, ("aa").toList, ("ab").toList, ("ac").toList, ("ade").toList]
        (fun x => x) (("aa").toList) = ("aa").toList :=
  ⟨(disambiguate_c2_amended _ _ _).1 _ (by decide),
   (disambiguate_c2_amended _ _ _).2 (by decide),
   (disambiguate_c2_amended _ _ _).2 (by decide),
   (disambiguate_c2_amended _ _ _).1 _ (by decide)⟩

/-! ### Per-line parsing behaviour -/

/-- The loop body of `parse_kv_config`, named for use in proofs. -/
def kvStep (m : AList) (line : Str) : AList :=
  match kvEntry line with
  | some kv => upsert m kv.1 kv.2
  | none => m

theorem parse_eq_foldl (lines : List Str) : parse_kv_config lines = lines.foldl kvStep [] := rfl

theorem lookupKV_foldl_kvStep (ls : List Str) (m : AList) (q : Str) :
    lookupKV (ls.foldl kvStep m) q = (lookupKV (ls.foldl kvStep []) q).or (lookupKV m q) := by
  induction ls generalizing m with
  | nil => simp [lookupKV]
  | cons l ls ih =>
    simp only [List.foldl_cons]
    rw [ih (kvStep m l), ih (kvStep [] l), Option.or_assoc]
    congr 1
    unfold kvStep
    cases kvEntry l with
    | none => simp [lookupKV]
    | some kv =>
      rw [lookupKV_upsert, lookupKV_upsert]
      by_cases h : kv.1 = q <;> simp [h, lookupKV]

/-- C9: within one flat source, later lines win: looking a key up in the
parse of `l1 ++ l2` consults the parse of the later segment `l2` first, and
in particular a final line storing `(k, v)` makes the parsed mapping hold
`v` at `k`. -/
theorem parse_kv_last_wins_c9 (l1 l2 : List Str) (line : Str) (k v : Str) :
    lookupKV (parse_kv_config (l1 ++ l2)) k
      = (lookupKV (parse_kv_config l2) k).or (lookupKV (parse_kv_config l1) k)
    ∧ (kvEntry line = some (k, v) →
        lookupKV (parse_kv_config (l1 ++ [line])) k = some v) := by
  constructor
  · rw [parse_eq_foldl, parse_eq_foldl, parse_eq_foldl, List.foldl_append]
    exact lookupKV_foldl_kvStep l2 (l1.foldl kvStep []) k
  · intro h
    rw [parse_eq_foldl, List.foldl_append]
    simp only [List.foldl_cons, List.foldl_nil]
    unfold kvStep
    rw [h]
    simp [lookupKV_upsert]

theorem parse_kv_last_wins_c9_witness :
    lookupKV (parse_kv_config ([("a=1").toList] ++ [("a=2").toList])) (("a").toList)
      = some (['2']) :=
  (parse_kv_last_wins_c9 [("a=1").toList] [("a=2").toList] (("a=2").toList)
    (("a").toList) (['2'])).2 (by decide)

theorem partitionEq_sep_iff (s : Str) : (partitionEq s).2.1 = true ↔ '=' ∈ s := by
  induction s with
  | nil => simp [partitionEq]
  | cons c r ih =>
    by_cases hc : c = '='
    · subst hc; simp [partitionEq]
    · have hmem : ('=' ∈ c :: r) ↔ '=' ∈ r := by
        simp only [List.mem_cons]
        constructor
        · rintro (h | h)
          · exact absurd h.symm hc
          · exact h
        · exact Or.inr
      rw [hmem]
      simpa [partitionEq, hc] using ih

theorem mem_eq_lstrip (line : Str) : '=' ∈ lstrip line ↔ '=' ∈ line := by
  induction line with
  | nil => simp [lstrip]
  | cons c r ih =>
    by_cases hc : isPySpace c
    · have hne : ('=' = c) = False := by
        simp only [eq_iff_iff, iff_false]
        intro h
        rw [← h] at hc
        simp [isPySpace] at hc
      simp only [lstrip, List.dropWhile_cons, hc, if_true, List.mem_cons, hne, false_or]
      exact ih
    · simp [lstrip, List.dropWhile_cons, hc]

/-- C6: per physical line, `parse_kv_config` ignores comment lines (first
non-whitespace character `#`) and lines without `=`; otherwise it splits at
the first `=` of the leading-whitespace-stripped line and stores the
stripped, lower-cased key with the stripped value (whitespace trimming
only); a line with an empty key is still stored under the empty key. -/
theorem parse_kv_per_line_c6 (pre : List Str) (line : Str) :
    ((lstrip line).head? = some '#' → parse_kv_config (pre ++ [line]) = parse_kv_config pre)
    ∧ (¬ '=' ∈ line → parse_kv_config (pre ++ [line]) = parse_kv_config pre)
    ∧ ((lstrip line).head? ≠ some '#' → '=' ∈ line →
        parse_kv_config (pre ++ [line])
          = upsert (parse_kv_config pre) (lower (strip (partitionEq (lstrip line)).1))
              (strip (partitionEq (lstrip line)).2.2))
    ∧ (∀ v : Str, parse_kv_config [('=' :: v)] = [([], strip v)]) := by
  have hstep : parse_kv_config (pre ++ [line]) = kvStep (parse_kv_config pre) line := by
    rw [parse_eq_foldl, parse_eq_foldl, List.foldl_append, List.foldl_cons, List.foldl_nil]
  refine ⟨?_, ?_, ?_, ?_⟩
  · intro h
    rw [hstep]
    unfold kvStep kvEntry
    simp [h]
  · intro h
    rw [hstep]
    unfold kvStep kvEntry
    rw [← mem_eq_lstrip, ← partitionEq_sep_iff] at h
    simp only [Bool.not_eq_true] at h
    by_cases hc : (lstrip line).head? = some '#' <;> simp [hc, h]
  · intro hc he
    rw [hstep]
    unfold kvStep kvEntry
    rw [← mem_eq_lstrip, ← partitionEq_sep_iff] at he
    simp [hc, he]
  · intro v
    have h1 : lstrip ('=' :: v) = '=' :: v := by
      simp [lstrip, List.dropWhile_cons, isPySpace]
    rw [parse_eq_foldl, List.foldl_cons, List.foldl_nil]
    unfold kvStep kvEntry
    rw [h1]
    simp [partitionEq, strip, lstrip, rstrip, lower, upsert]

theorem parse_kv_per_line_c6_witness :
    parse_kv_config ([] ++ [("  # comment = x").toList]) = parse_kv_config []
    ∧ parse_kv_config ([] ++ [("no separator here").toList]) = parse_kv_config []
    ∧ parse_kv_config ([] ++ [("  My Key = a value ").toList])
        = upsert (parse_kv_config [])
            (lower (strip (partitionEq (lstrip (("  My Key = a value ").toList))).1))
            (strip (partitionEq (lstrip (("  My Key = a value ").toList))).2.2)
    ∧ parse_kv_config [('=' :: ("val").toList)] = [([], strip (("val").toList))] :=
  ⟨(parse_kv_per_line_c6 [] _).1 (by decide),
   (parse_kv_per_line_c6 [] _).2.1 (by decide),
   (parse_kv_per_line_c6 [] _).2.2.1 (by decide) (by decide),
   (parse_kv_per_line_c6 [] []).2.2.2 (("val").toList)⟩

/-! ### Section resolution: code vs. spec -/

/-- C1: the code resolves a log file's settings through `match_section`,
which returns only the FIRST declared section whose pattern matches, while
the spec (and the repository's own tests, via `get_matching_settings`)
prescribe overlaying EVERY matching section in declaration order.  At the
configuration `DEFAULT={1:default}`, sections `[*]={2:*}` then
`[ab*]={3:ab*}` (the tests' `test_redundant_default` input), resolving key
`3` for target `abc` yields nothing in the code but `ab*` under the spec's
overlay; and with sections `[b]={2:b}` then `[*]={2:*}` (the tests'
`test_later_override` input), the code resolves key `2` for target `b` to
the first-declared `b`, the spec's overlay to the last-declared `*`. -/
theorem section_resolution_c1 :
    resolveSetting
        ⟨[((['1']), ("default").toList)],
         [((['*']), [((['2']), (['*']))]),
          ((("ab*").toList), [((['3']), ("ab*").toList)])]⟩
        (("abc").toList) (['3']) = none
    ∧ lookupKV
        (overlayResolution
          ⟨[((['1']), ("default").toList)],
           [((['*']), [((['2']), (['*']))]),
            ((("ab*").toList), [((['3']), ("ab*").toList)])]⟩
          (("abc").toList)) (['3']) = some (("ab*").toList)
    ∧ resolveSetting
        ⟨[], [((['b']), [((['2']), (['b']))]), ((['*']), [((['2']), (['*']))])]⟩
        (['b']) (['2']) = some (['b'])
    ∧ lookupKV
        (overlayResolution
          ⟨[], [((['b']), [((['2']), (['b']))]), ((['*']), [((['2']), (['*']))])]⟩
          (['b'])) (['2']) = some (['*']) := by
  refine ⟨?_, ?_, ?_, ?_⟩ <;>
    simp [resolveSetting, match_section, overlayResolution, fnmatch, globMatch, suffixes,
      List.find?, upsertAll, upsert, lookupKV]

/-! ### Merge precedence of the sectioned document -/

theorem findSec_readSection (secs : List (Str × AList)) (name : Str)
    (pairs : List (Str × Str)) (q : Str) :
    findSec (readSection secs name pairs) q
      = if q = name then some (upsertAll ((findSec secs name).getD []) pairs)
        else findSec secs q := by
  induction secs with
  | nil =>
    by_cases h : q = name
    · subst h; simp [readSection, findSec]
    · have hnq : ¬ name = q := fun hh => h hh.symm
      simp [readSection, findSec, h, hnq]
  | cons p rest ih =>
    obtain ⟨n, m⟩ := p
    by_cases hn : n = name
    · subst hn
      by_cases hq : q = n
      · subst hq; simp [readSection, findSec]
      · have hnq : ¬ n = q := fun hh => hq hh.symm
        simp [readSection, findSec, hq, hnq]
    · by_cases hnq : n = q <;> by_cases hqname : q = name <;>
        simp_all [readSection, findSec]

theorem findDocSec_eq_none {l : List (Str × List (Str × Str))} {sec : Str}
    (h : sec ∉ l.map Prod.fst) : findDocSec l sec = none := by
  induction l with
  | nil => rfl
  | cons x xs ih =>
    obtain ⟨n, ps⟩ := x
    simp only [List.map_cons, List.mem_cons] at h
    push_neg at h
    have hns : ¬ n = sec := fun hh => h.1 hh.symm
    simp [findDocSec, hns, ih h.2]

theorem sectionKV_foldl_readSection (dsecs : List (Str × List (Str × Str)))
    (secs : List (Str × AList)) (sec k : Str)
    (hnodup : (dsecs.map Prod.fst).Nodup) :
    (findSec (dsecs.foldl (fun s x => readSection s x.1 x.2) secs) sec).bind
        (fun m => lookupKV m k)
      = ((findDocSec dsecs sec).bind (fun ps => lookupKV (upsertAll [] ps) k)).or
          ((findSec secs sec).bind (fun m => lookupKV m k)) := by
  induction dsecs generalizing secs with
  | nil => simp [findDocSec]
  | cons x xs ih =>
    obtain ⟨name, pairs⟩ := x
    simp only [List.foldl_cons]
    simp only [List.map_cons, List.nodup_cons] at hnodup
    rw [ih _ hnodup.2]
    by_cases hsec : sec = name
    · subst hsec
      rw [findDocSec_eq_none hnodup.1]
      simp only [Option.none_bind, Option.none_or]
      rw [findSec_readSection]
      simp only [if_pos rfl, findDocSec, Option.some_bind]
      cases h : findSec secs sec with
      | none => simp [h]
      | some m =>
        simp only [h, Option.getD_some, Option.some_bind]
        simpa using lookupKV_upsertAll pairs m k
    · rw [findSec_readSection]
      have hns : ¬ name = sec := fun hh => hsec hh.symm
      simp [hsec, findDocSec, hns]

theorem defaultKV_readDoc (cfg : Config) (doc : IniDoc) (k : Str) :
    lookupKV (readDoc cfg doc).defaultMap k
      = (docDefaultValue doc k).or (lookupKV cfg.defaultMap k) := by
  show lookupKV (upsertAll cfg.defaultMap doc.defaults) k = _
  rw [lookupKV_upsertAll doc.defaults cfg.defaultMap k]
  rfl

theorem sectionKV_readDoc (cfg : Config) (doc : IniDoc) (sec k : Str)
    (hnodup : (doc.sections.map Prod.fst).Nodup) :
    sectionKV (readDoc cfg doc) sec k
      = (docSectionValue doc sec k).or (sectionKV cfg sec k) := by
  simp only [sectionKV, readDoc, docSectionValue]
  exact sectionKV_foldl_readSection doc.sections cfg.sections sec k hnodup

theorem readAll_lookups (openIni : Str → Option IniDoc) (cfg : Config)
    (fs : List Str) (k sec : Str)
    (hnodup : ∀ p d, openIni p = some d → (d.sections.map Prod.fst).Nodup) :
    lookupKV (readAll openIni cfg fs).defaultMap k
      = (fs.reverse.findSome? (fun p => (openIni p).bind (fun d => docDefaultValue d k))).or
          (lookupKV cfg.defaultMap k)
    ∧ sectionKV (readAll openIni cfg fs) sec k
      = (fs.reverse.findSome? (fun p => (openIni p).bind (fun d => docSectionValue d sec k))).or
          (sectionKV cfg sec k) := by
  induction fs generalizing cfg with
  | nil => simp [readAll]
  | cons f fs ih =>
    have hstep : readAll openIni cfg (f :: fs)
        = readAll openIni
            (match openIni f with
              | some d => readDoc cfg d
              | none => cfg) fs := by
      simp [readAll]
    rw [hstep]
    cases h : openIni f with
    | none =>
      obtain ⟨ih1, ih2⟩ := ih cfg
      constructor
      · rw [ih1]
        simp [List.reverse_cons, List.findSome?_append, h, List.findSome?_cons]
      · rw [ih2]
        simp [List.reverse_cons, List.findSome?_append, h, List.findSome?_cons]
    | some d =>
      obtain ⟨ih1, ih2⟩ := ih (readDoc cfg d)
      constructor
      · rw [ih1, defaultKV_readDoc]
        simp only [List.reverse_cons, List.findSome?_append, h, List.findSome?_cons,
          Option.some_bind, List.findSome?_nil, Option.or_assoc]
        cases docDefaultValue d k <;> simp
      · rw [ih2, sectionKV_readDoc _ _ _ _ (hnodup f d h)]
        simp only [List.reverse_cons, List.findSome?_append, h, List.findSome?_cons,
          Option.some_bind, List.findSome?_nil, Option.or_assoc]
        cases docSectionValue d sec k <;> simp

/-- C4: `read_configuration` feeds the discovered files to `config.read` in
reverse discovery order, so for any DEFAULT key and any section+key the
value present in the merged document is the one of the
earliest-discovered (highest-precedence) file defining it, with the parser's
initial contents as final fallback.  (The per-file section-name `Nodup`
hypothesis reflects configparser's strict mode, which rejects duplicate
sections within one file.) -/
theorem read_configuration_precedence_c4 (openIni : Str → Option IniDoc) (cfg : Config)
    (env : Env) (home : Str) (pathExists : Str → Bool) (pathname : Str) (k sec : Str)
    (hnodup : ∀ p d, openIni p = some d → (d.sections.map Prod.fst).Nodup) :
    lookupKV (read_configuration openIni cfg env home pathExists pathname).defaultMap k
      = ((load_config_paths env home pathExists progName [pathname]).findSome?
          (fun p => (openIni p).bind (fun d => docDefaultValue d k))).or
          (lookupKV cfg.defaultMap k)
    ∧ sectionKV (read_configuration openIni cfg env home pathExists pathname) sec k
      = ((load_config_paths env home pathExists progName [pathname]).findSome?
          (fun p => (openIni p).bind (fun d => docSectionValue d sec k))).or
          (sectionKV cfg sec k) := by
  unfold read_configuration
  have h := readAll_lookups openIni cfg
    (load_config_paths env home pathExists progName [pathname]).reverse k sec hnodup
  simpa [List.reverse_reverse] using h

theorem read_configuration_precedence_c4_witness :
    lookupKV
        (read_configuration
          (fun p =>
            if p = ("/u/logfilter/x").toList then
              some ⟨[((['a']), (['1']))], [((['s']), [((['a']), (['1']))])]⟩
            else if p = ("/s/logfilter/x").toList then
              some ⟨[((['a']), (['2']))], [((['s']), [((['a']), (['2']))])]⟩
            else none)
          ⟨[], []⟩ ⟨some (("/u").toList), some (("/s").toList)⟩ (("/h").toList)
          (fun _ => true) (("x").toList)).defaultMap (['a'])
      = some (['1'])
    ∧ sectionKV
        (read_configuration
          (fun p =>
            if p = ("/u/logfilter/x").toList then
              some ⟨[((['a']), (['1']))], [((['s']), [((['a']), (['1']))])]⟩
            else if p = ("/s/logfilter/x").toList then
              some ⟨[((['a']), (['2']))], [((['s']), [((['a']), (['2']))])]⟩
            else none)
          ⟨[], []⟩ ⟨some (("/u").toList), some (("/s").toList)⟩ (("/h").toList)
          (fun _ => true) (("x").toList)) (['s']) (['a'])
      = some (['1']) := by
  have h := read_configuration_precedence_c4
    (fun p =>
      if p = ("/u/logfilter/x").toList then
        some ⟨[((['a']), (['1']))], [((['s']), [((['a']), (['1']))])]⟩
      else if p = ("/s/logfilter/x").toList then
        some ⟨[((['a']), (['2']))], [((['s']), [((['a']), (['2']))])]⟩
      else none)
    ⟨[], []⟩ ⟨some (("/u").toList), some (("/s").toList)⟩ (("/h").toList)
    (fun _ => true) (("x").toList) (['a']) (['s'])
    (by
      intro p d h
      dsimp only at h
      by_cases h1 : p = ("/u/logfilter/x").toList
      · rw [if_pos h1] at h
        cases h
        decide
      · rw [if_neg h1] at h
        by_cases h2 : p = ("/s/logfilter/x").toList
        · rw [if_pos h2] at h
          cases h
          decide
        · rw [if_neg h2] at h
          cases h)
  obtain ⟨h1, h2⟩ := h
  constructor
  · rw [h1]
    decide
  · rw [h2]
    decide

/-! ### Round-trip of parsed entries

Parsed keys are already stripped and lower-cased and parsed values already
stripped, so serializing an entry back to `key=value` and re-parsing it
reproduces the entry.  The character-level lemmas below relate `Char.toLower`
to the whitespace predicate and to the separator and comment characters. -/

theorem char_eq_iff_toNat {c d : Char} : c = d ↔ c.toNat = d.toNat := by
  constructor
  · intro h; rw [h]
  · intro h
    have h2 := congrArg Char.ofNat h
    rwa [Char.ofNat_toNat, Char.ofNat_toNat] at h2

theorem toNat_ofNat_valid {n : Nat} (h : n < 55296) : (Char.ofNat n).toNat = n := by
  have hv : n.isValidChar := Or.inl h
  simp [Char.ofNat, hv, Char.ofNatAux, Char.toNat, UInt32.toNat, BitVec.toNat_ofNatLt]

theorem toLower_cases (c : Char) :
    Char.toLower c = c ∨ (65 ≤ c.toNat ∧ c.toNat ≤ 90 ∧ (Char.toLower c).toNat = c.toNat + 32) := by
  unfold Char.toLower
  by_cases h : c.toNat ≥ 65 ∧ c.toNat ≤ 90
  · right
    refine ⟨h.1, h.2, ?_⟩
    rw [if_pos h]
    exact toNat_ofNat_valid (by omega)
  · left
    rw [if_neg h]

theorem toLower_fix {c : Char} (h : ¬ (65 ≤ c.toNat ∧ c.toNat ≤ 90)) : Char.toLower c = c := by
  unfold Char.toLower
  rw [if_neg h]

theorem toLower_idem (c : Char) : Char.toLower (Char.toLower c) = Char.toLower c := by
  rcases toLower_cases c with h | ⟨h1, h2, h3⟩
  · rw [h, h]
  · exact toLower_fix (by omega)

theorem toLower_eq_low {c t : Char} (ht : t.toNat < 65) : Char.toLower c = t ↔ c = t := by
  constructor
  · intro h
    rcases toLower_cases c with h2 | ⟨h1, h2, h3⟩
    · rwa [← h2]
    · rw [char_eq_iff_toNat] at h
      omega
  · intro h
    subst h
    exact toLower_fix (by omega)

theorem isPySpace_toLower (c : Char) : isPySpace (Char.toLower c) = isPySpace c := by
  rcases toLower_cases c with h | ⟨h1, h2, h3⟩
  · rw [h]
  · have e1 : (' ' : Char).toNat = 32 := rfl
    have e2 : ('\t' : Char).toNat = 9 := rfl
    have e3 : ('\n' : Char).toNat = 10 := rfl
    have e4 : ('\r' : Char).toNat = 13 := rfl
    have e5 : ('\x0b' : Char).toNat = 11 := rfl
    have e6 : ('\x0c' : Char).toNat = 12 := rfl
    unfold isPySpace
    simp only [char_eq_iff_toNat, e1, e2, e3, e4, e5, e6]
    have hA : (decide (c.toLower.toNat = 32) || decide (c.toLower.toNat = 9) ||
        decide (c.toLower.toNat = 10) || decide (c.toLower.toNat = 13) ||
        decide (c.toLower.toNat = 11) || decide (c.toLower.toNat = 12)) = false := by
      simp only [Bool.or_eq_false_iff, decide_eq_false_iff_not]
      refine ⟨⟨⟨⟨⟨?_, ?_⟩, ?_⟩, ?_⟩, ?_⟩, ?_⟩ <;> omega
    have hB : (decide (c.toNat = 32) || decide (c.toNat = 9) ||
        decide (c.toNat = 10) || decide (c.toNat = 13) ||
        decide (c.toNat = 11) || decide (c.toNat = 12)) = false := by
      simp only [Bool.or_eq_false_iff, decide_eq_false_iff_not]
      refine ⟨⟨⟨⟨⟨?_, ?_⟩, ?_⟩, ?_⟩, ?_⟩, ?_⟩ <;> omega
    rw [hA, hB]

theorem dropWhile_idem (p : Char → Bool) (l : Str) :
    (l.dropWhile p).dropWhile p = l.dropWhile p := by
  induction l with
  | nil => rfl
  | cons c r ih =>
    by_cases h : p c <;> simp [List.dropWhile_cons, h, ih]

theorem lower_idem (s : Str) : lower (lower s) = lower s := by
  induction s with
  | nil => rfl
  | cons c r ih =>
    simp only [lower, List.map_cons, List.map_map] at *
    simp [toLower_idem, ih]

theorem pySpace_comp_toLower : (isPySpace ∘ Char.toLower) = isPySpace :=
  funext (fun c => isPySpace_toLower c)

theorem lstrip_lower (s : Str) : lstrip (lower s) = lower (lstrip s) := by
  unfold lstrip lower
  rw [List.dropWhile_map, pySpace_comp_toLower]

theorem rstrip_lower (s : Str) : rstrip (lower s) = lower (rstrip s) := by
  unfold rstrip lower
  rw [← List.map_reverse, List.dropWhile_map, pySpace_comp_toLower, ← List.map_reverse]

theorem strip_lower (s : Str) : strip (lower s) = lower (strip s) := by
  unfold strip
  rw [lstrip_lower, rstrip_lower]

theorem lstrip_head_not_space : ∀ {l : Str} {c : Char},
    (lstrip l).head? = some c → isPySpace c = false := by
  intro l
  induction l with
  | nil => intro c h; simp [lstrip] at h
  | cons a r ih =>
    intro c h
    by_cases ha : isPySpace a
    · rw [show lstrip (a :: r) = lstrip r from by simp [lstrip, List.dropWhile_cons, ha]] at h
      exact ih h
    · rw [show lstrip (a :: r) = a :: r from by simp [lstrip, List.dropWhile_cons, ha]] at h
      simp only [List.head?_cons, Option.some.injEq] at h
      subst h
      simpa using ha

theorem rstrip_cons (c : Char) (r : Str) (h : isPySpace c = false) :
    rstrip (c :: r) = c :: rstrip r := by
  unfold rstrip
  rw [List.reverse_cons, List.dropWhile_append]
  by_cases he : (r.reverse.dropWhile isPySpace).isEmpty
  · rw [if_pos he]
    rw [List.isEmpty_iff] at he
    simp [List.dropWhile_cons, h, he]
  · rw [if_neg he]
    simp

theorem rstrip_idem (s : Str) : rstrip (rstrip s) = rstrip s := by
  unfold rstrip
  rw [List.reverse_reverse, dropWhile_idem]

theorem lstrip_cons_fix (c : Char) (r : Str) (h : isPySpace c = false) :
    lstrip (c :: r) = c :: r := by
  simp [lstrip, List.dropWhile_cons, h]

theorem strip_idem (s : Str) : strip (strip s) = strip s := by
  unfold strip
  cases ht : lstrip s with
  | nil => simp [rstrip, lstrip]
  | cons c r =>
    have hc : isPySpace c = false := lstrip_head_not_space (by rw [ht]; rfl)
    rw [rstrip_cons c r hc, lstrip_cons_fix c _ hc, rstrip_cons c _ hc, rstrip_idem]

theorem strip_sublist (s : Str) : (strip s).Sublist s := by
  unfold strip rstrip lstrip
  have h1 : (List.dropWhile isPySpace s).Sublist s := List.dropWhile_sublist _
  have h2 : ((List.dropWhile isPySpace s).reverse.dropWhile isPySpace).Sublist
      (List.dropWhile isPySpace s).reverse := List.dropWhile_sublist _
  have h3 := List.reverse_sublist.mpr h2
  rw [List.reverse_reverse] at h3
  exact h3.trans h1

theorem partitionEq_decomp : ∀ {s : Str}, (partitionEq s).2.1 = true →
    s = (partitionEq s).1 ++ '=' :: (partitionEq s).2.2 := by
  intro s
  induction s with
  | nil => simp [partitionEq]
  | cons c r ih =>
    by_cases hc : c = '='
    · subst hc; intro _; simp [partitionEq]
    · intro h
      simp only [partitionEq, if_neg hc] at h ⊢
      rw [List.cons_append]
      exact congrArg (c :: ·) (ih h)

theorem partitionEq_key_no_eq : ∀ (s : Str), '=' ∉ (partitionEq s).1 := by
  intro s
  induction s with
  | nil => simp [partitionEq]
  | cons c r ih =>
    by_cases hc : c = '='
    · subst hc; simp [partitionEq]
    · simp only [partitionEq, if_neg hc, List.mem_cons]
      rintro (h | h)
      · exact hc h.symm
      · exact ih h

theorem partitionEq_append (k v : Str) (h : '=' ∉ k) :
    partitionEq (k ++ '=' :: v) = (k, true, v) := by
  induction k with
  | nil => simp [partitionEq]
  | cons c r ih =>
    have hc : ¬ c = '=' := fun hh => h (by rw [hh]; exact List.mem_cons_self _ _)
    have hr : '=' ∉ r := fun hm => h (List.mem_cons_of_mem _ hm)
    simp [partitionEq, hc, ih hr]

/-- Normal form of entries stored by `parse_kv_config`: the key is free of
`=`, already lower-cased and stripped with a non-whitespace, non-`#` head
when non-empty, and the value is already stripped. -/
def goodEntry (kv : Str × Str) : Prop :=
  ('=' ∉ kv.1) ∧ lower kv.1 = kv.1 ∧ strip kv.1 = kv.1 ∧ strip kv.2 = kv.2 ∧
    (kv.1 = [] ∨ ∃ c r, kv.1 = c :: r ∧ isPySpace c = false ∧ c ≠ '#')

theorem kvEntry_good {line : Str} {k v : Str} (h : kvEntry line = some (k, v)) :
    goodEntry (k, v) := by
  unfold kvEntry at h
  by_cases hc : (lstrip line).head? = some '#'
  · simp [hc] at h
  · rw [if_neg hc] at h
    by_cases hs : (partitionEq (lstrip line)).2.1 = true
    · rw [if_pos hs] at h
      simp only [Option.some.injEq, Prod.mk.injEq] at h
      obtain ⟨hk, hv⟩ := h
      have hvv : strip v = v := by rw [← hv, strip_idem]
      have hkeq : '=' ∉ k := by
        rw [← hk]
        intro hmem
        unfold lower at hmem
        rcases List.mem_map.mp hmem with ⟨a, ha, haeq⟩
        rw [toLower_eq_low (by decide)] at haeq
        subst haeq
        exact partitionEq_key_no_eq (lstrip line)
          ((strip_sublist (partitionEq (lstrip line)).1).subset ha)
      have hklow : lower k = k := by rw [← hk, lower_idem]
      have hkstrip : strip k = k := by
        rw [← hk, strip_lower, strip_idem]
      refine ⟨hkeq, hklow, hkstrip, hvv, ?_⟩
      cases hk0 : strip (partitionEq (lstrip line)).1 with
      | nil =>
        left
        rw [← hk, hk0]
        rfl
      | cons c0 r0 =>
        right
        have hc0 : isPySpace c0 = false := by
          cases hky : lstrip (partitionEq (lstrip line)).1 with
          | nil =>
            rw [show strip (partitionEq (lstrip line)).1
                = rstrip (lstrip (partitionEq (lstrip line)).1) from rfl, hky] at hk0
            cases hk0
          | cons a t =>
            have ha : isPySpace a = false :=
              lstrip_head_not_space
                (show (lstrip (partitionEq (lstrip line)).1).head? = some a from by
                  rw [hky]; rfl)
            rw [show strip (partitionEq (lstrip line)).1
                = rstrip (lstrip (partitionEq (lstrip line)).1) from rfl, hky,
              rstrip_cons a t ha] at hk0
            cases hk0
            exact ha
        have hc0h : c0 ≠ '#' := by
          have hdec := partitionEq_decomp hs
          cases hkey : (partitionEq (lstrip line)).1 with
          | nil =>
            rw [show strip (partitionEq (lstrip line)).1
                = rstrip (lstrip (partitionEq (lstrip line)).1) from rfl, hkey] at hk0
            cases hk0
          | cons b rest =>
            have hbl : (lstrip line).head? = some b := by
              rw [hdec, hkey]
              rfl
            have hb : isPySpace b = false := by
              have hll : lstrip (lstrip line) = lstrip line := dropWhile_idem _ _
              exact lstrip_head_not_space (by rw [hll]; exact hbl)
            rw [show strip (partitionEq (lstrip line)).1
                = rstrip (lstrip (partitionEq (lstrip line)).1) from rfl, hkey,
              lstrip_cons_fix b rest hb, rstrip_cons b rest hb] at hk0
            have hbc : c0 = b := by cases hk0; rfl
            subst hbc
            intro hbad
            apply hc
            rw [hbl, hbad]
        refine ⟨Char.toLower c0, lower r0, ?_, ?_, ?_⟩
        · rw [← hk, hk0]
          rfl
        · rw [isPySpace_toLower]
          exact hc0
        · intro hbad
          rw [toLower_eq_low (by decide)] at hbad
          exact hc0h hbad
    · simp [hs] at h

theorem kvEntry_roundtrip {k v : Str} (hg : goodEntry (k, v)) :
    kvEntry (k ++ '=' :: v) = some (k, v) := by
  obtain ⟨hne, hlow, hstripk, hstripv, hhead⟩ := hg
  dsimp only at hne hlow hstripk hstripv hhead
  have hl : lstrip (k ++ '=' :: v) = k ++ '=' :: v := by
    rcases hhead with hk0 | ⟨c, r, hk, hcs, hch⟩
    · rw [hk0, List.nil_append]
      exact lstrip_cons_fix '=' v (by decide)
    · rw [hk, List.cons_append]
      exact lstrip_cons_fix c _ hcs
  have hh : (k ++ '=' :: v).head? ≠ some '#' := by
    rcases hhead with hk0 | ⟨c, r, hk, hcs, hch⟩
    · rw [hk0, List.nil_append]
      simp
    · rw [hk, List.cons_append]
      simp [hch]
  unfold kvEntry
  dsimp only
  rw [hl, if_neg hh, partitionEq_append k v hne]
  dsimp only
  rw [if_pos rfl, hstripk, hlow, hstripv]

theorem mem_upsert {m : AList} {k v : Str} {kv : Str × Str} (h : kv ∈ upsert m k v) :
    kv = (k, v) ∨ kv ∈ m := by
  induction m with
  | nil => simpa [upsert] using h
  | cons p rest ih =>
    obtain ⟨a, b⟩ := p
    simp only [upsert] at h
    by_cases hp : a = k
    · rw [if_pos hp] at h
      rcases List.mem_cons.mp h with h1 | h1
      · exact Or.inl h1
      · exact Or.inr (List.mem_cons_of_mem _ h1)
    · rw [if_neg hp] at h
      rcases List.mem_cons.mp h with h1 | h1
      · exact Or.inr (by rw [h1]; exact List.mem_cons_self _ _)
      · rcases ih h1 with h2 | h2
        · exact Or.inl h2
        · exact Or.inr (List.mem_cons_of_mem _ h2)

theorem parse_kv_good (lines : List Str) :
    ∀ kv ∈ parse_kv_config lines, goodEntry kv := by
  rw [parse_eq_foldl]
  suffices h : ∀ (m : AList), (∀ kv ∈ m, goodEntry kv) →
      ∀ kv ∈ lines.foldl kvStep m, goodEntry kv by
    exact h [] (by simp)
  induction lines with
  | nil => intro m hm; simpa using hm
  | cons line ls ih =>
    intro m hm
    simp only [List.foldl_cons]
    apply ih
    intro kv hkv
    unfold kvStep at hkv
    cases he : kvEntry line with
    | none =>
      rw [he] at hkv
      exact hm kv hkv
    | some kv2 =>
      obtain ⟨a, b⟩ := kv2
      rw [he] at hkv
      rcases mem_upsert hkv with h1 | h1
      · rw [h1]
        exact kvEntry_good he
      · exact hm kv h1

/-- C7: serialization followed by re-parsing is the identity on parsed
entries: for any entry `(k, v)` of a mapping produced by `parse_kv_config`,
parsing the single line `k = v` (`k ++ '=' :: v`) yields exactly the mapping
`[(k, v)]`. -/
theorem parse_kv_roundtrip_c7 (lines : List Str) (k v : Str)
    (h : (k, v) ∈ parse_kv_config lines) :
    parse_kv_config [k ++ '=' :: v] = [(k, v)] := by
  have hg := parse_kv_good lines (k, v) h
  rw [parse_eq_foldl, List.foldl_cons, List.foldl_nil]
  unfold kvStep
  rw [kvEntry_roundtrip hg]
  rfl

theorem parse_kv_roundtrip_c7_witness :
    parse_kv_config [("a").toList ++ '=' :: ("b").toList]
      = [((("a").toList), (("b").toList))] :=
  parse_kv_roundtrip_c7 [(" A = b ").toList] (("a").toList) (("b").toList) (by decide)

end Logfilter
